import Mathlib

/-!
Verification of the knot-indexing and bounds-search core of `enterpolation`
(`src/base/list.rs`).

Embedding conventions:
* A generator of rationals is modelled as a `List ℚ`; `gen S i` is
  `Generator::gen` (in-range accesses only), `gen? S i` is used where an
  out-of-range access in Rust would panic (slice indexing).
* Rust `usize` arithmetic is modelled on `ℕ`; subtractions that may underflow
  (a panic in debug builds, the behaviour documented by the crate) are modelled
  with `sub?`, returning `none` for a panic.  Fallible operations return
  `Option`, `none` meaning a panic.
* The binary-search loops are written with an explicit fuel argument; every
  top-level entry point passes fuel that provably exceeds the number of
  iterations (each iteration strictly decreases the loop measure, which the
  fuel bounds), so the fuel clause is unreachable and the functions compute
  exactly what the Rust loops do.
* `f64` values are modelled as `ℚ` (exact arithmetic); `Real::floor`, `ceil`
  and `fract` (truncation based) are modelled by `Rat.floor`, `rceil` and
  `fract` below.  Division by zero yields the junk value `0` in `ℚ` where Rust
  `f64` would yield `inf`/`NaN`; no theorem below depends on the junk value.
-/

namespace Enterpolation

/-- `Generator::gen` for a list-backed generator, on indices the algorithms
keep in range (`S.getD i 0`; the default is never exposed by the theorems). -/
def gen (S : List ℚ) (i : ℕ) : ℚ := S.getD i 0

/-- `Generator::gen` where Rust slice indexing would panic out of range. -/
def gen? (S : List ℚ) (i : ℕ) : Option ℚ :=
  if h : i < S.length then some (S.get ⟨i, h⟩) else none

/-- Checked `usize` subtraction: `none` models the debug-mode underflow panic. -/
def sub? (a b : ℕ) : Option ℕ := if b ≤ a then some (a - b) else none

/-- Loop of `SortedList::upper_border` (list.rs:175-193):
`while max_index - min_index > 1 { mid; if element < sample { max = mid } else { min = mid } }`. -/
def upper_border_loop (S : List ℚ) (q : ℚ) : ℕ → ℕ → ℕ → ℕ × ℕ
  | 0, min_index, max_index => (min_index, max_index)
  | fuel + 1, min_index, max_index =>
    if max_index - min_index > 1 then
      let index := min_index + (max_index - min_index) / 2
      if q < gen S index then upper_border_loop S q fuel min_index index
      else upper_border_loop S q fuel index max_index
    else (min_index, max_index)

/-- `SortedList::upper_border` (list.rs:175-193).  `self.len() - 1` underflows
(panics) on an empty generator. -/
def upper_border (S : List ℚ) (q : ℚ) : Option (ℕ × ℕ) :=
  match sub? S.length 1 with
  | none => none
  | some last => some (upper_border_loop S q S.length 0 last)

/-- Loop of `SortedList::lower_border` (list.rs:263-281), branching on
`element > sample`. -/
def lower_border_loop (S : List ℚ) (q : ℚ) : ℕ → ℕ → ℕ → ℕ × ℕ
  | 0, min_index, max_index => (min_index, max_index)
  | fuel + 1, min_index, max_index =>
    if max_index - min_index > 1 then
      let index := min_index + (max_index - min_index) / 2
      if gen S index < q then lower_border_loop S q fuel index max_index
      else lower_border_loop S q fuel min_index index
    else (min_index, max_index)

/-- `SortedList::lower_border` (list.rs:263-281). -/
def lower_border (S : List ℚ) (q : ℚ) : Option (ℕ × ℕ) :=
  match sub? S.length 1 with
  | none => none
  | some last => some (lower_border_loop S q S.length 0 last)

/-- `SortedList::lower_bound` (list.rs:55-62): `if last() <= element { len-1 }
else { upper_border(element)[0] }`; `last()` is `gen(len() - 1)`, whose
subtraction panics on an empty generator. -/
def lower_bound (S : List ℚ) (q : ℚ) : Option ℕ :=
  match sub? S.length 1 with
  | none => none
  | some last =>
    if gen S last ≤ q then some last
    else (upper_border S q).map (fun p => p.1)

/-- `SortedList::upper_bound` (list.rs:87-94): `if first() >= element { 0 }
else { lower_border(element)[1] }`; `first()` is `gen(0)`, an out-of-range
access (panic) on an empty generator. -/
def upper_bound (S : List ℚ) (q : ℚ) : Option ℕ :=
  match gen? S 0 with
  | none => none
  | some first =>
    if q ≤ first then some 0
    else (lower_border S q).map (fun p => p.2)

/-- Loop of `SortedList::strict_upper_bound` (list.rs:106-122).  All its
`usize` subtractions are provably safe (`count - (step+1)` with
`step = count/2 < count`), so the loop is total. -/
def strict_upper_bound_loop (S : List ℚ) (q : ℚ) : ℕ → ℕ → ℕ → ℕ
  | 0, pointer, _ => pointer
  | fuel + 1, pointer, count =>
    if 0 < count then
      let step := count / 2
      let sample := pointer + step
      if gen S sample ≤ q then
        strict_upper_bound_loop S q fuel (sample + 1) (count - (step + 1))
      else
        strict_upper_bound_loop S q fuel pointer step
    else pointer

/-- `SortedList::strict_upper_bound` (list.rs:106-122).  Note: on an empty
generator the loop body never runs and the function returns `0` without
panicking, despite its own `# Panics` doc comment. -/
def strict_upper_bound (S : List ℚ) (q : ℚ) : ℕ :=
  strict_upper_bound_loop S q S.length 0 S.length

/-- Loop of `SortedList::strict_lower_bound` (list.rs:134-150).  The
subtractions `pointer - step` and `sample - 1` can underflow (debug panic),
hence the `Option`. -/
def strict_lower_bound_loop (S : List ℚ) (q : ℚ) : ℕ → ℕ → ℕ → Option ℕ
  | 0, pointer, _ => some pointer
  | fuel + 1, pointer, count =>
    if 0 < count then
      let step := count / 2
      match sub? pointer step with
      | none => none
      | some sample =>
        if gen S sample ≤ q then
          match sub? sample 1 with
          | none => none
          | some p => strict_lower_bound_loop S q fuel p (count - (step + 1))
        else strict_lower_bound_loop S q fuel pointer step
    else some pointer

/-- `SortedList::strict_lower_bound` (list.rs:134-150); `pointer` starts at
`self.len() - 1` (underflow panic on an empty generator). -/
def strict_lower_bound (S : List ℚ) (q : ℚ) : Option ℕ :=
  match sub? S.length 1 with
  | none => none
  | some pointer => strict_lower_bound_loop S q S.length pointer S.length

/-- `SortedList::factor` (list.rs:232-238): `(element - min) / (max - min)`
with `max = gen(max_index)` fetched first, then `min = gen(min_index)`;
out-of-range indices panic on a slice-backed generator. -/
def factor (S : List ℚ) (min_index max_index : ℕ) (q : ℚ) : Option ℚ :=
  match gen? S max_index, gen? S min_index with
  | some mx, some mn => some ((q - mn) / (mx - mn))
  | _, _ => none

/-- Generic `SortedList::upper_border_with_factor` (list.rs:221-227). -/
def upper_border_with_factor (S : List ℚ) (q : ℚ) : Option (ℕ × ℕ × ℚ) :=
  match upper_border S q with
  | none => none
  | some (min_index, max_index) =>
    match factor S min_index max_index q with
    | none => none
    | some f => some (min_index, max_index, f)

/-- `NonEmpty::new` (list.rs:292-297): `None` iff the collection is empty. -/
def NonEmpty.new (S : List ℚ) : Option (List ℚ) :=
  if S.length = 0 then none else some S

/-- The `for i in 1..col.len()` loop of `Sorted::new` (list.rs:348-361),
threading `last` and returning `false` when `!(last <= current)`; the fuel is
the exact number of remaining iterations. -/
def sorted_loop (S : List ℚ) : ℚ → ℕ → ℕ → Bool
  | _, _, 0 => true
  | last, i, fuel + 1 =>
    let current := gen S i
    if last ≤ current then sorted_loop S current (i + 1) fuel
    else false

/-- `Sorted::new` (list.rs:348-361): an empty collection is accepted; otherwise
scan from `gen(0)` over indices `1..len`. -/
def Sorted.new (S : List ℚ) : Option (List ℚ) :=
  if S.length = 0 then some S
  else if sorted_loop S (gen S 0) 1 (S.length - 1) then some S else none

/-- `Real::ceil` modelled on `ℚ`: the ceiling, as `-⌊-x⌋` (computably, via
`Rat.floor`). -/
def rceil (x : ℚ) : ℤ := -Rat.floor (-x)

/-- `Real::fract` modelled on `ℚ`: `self - self.trunc()`, truncation being
floor for nonnegative input and ceiling for negative input. -/
def fract (x : ℚ) : ℚ :=
  if 0 ≤ x then x - (Rat.floor x : ℚ) else x - (rceil x : ℚ)

/-- `ToPrimitive::to_usize().unwrap()` on an integral float value: panics
(`none`) on a negative value. -/
def toUsize? (i : ℤ) : Option ℕ := if 0 ≤ i then some i.toNat else none

/-- `Equidistant` (list.rs:396-400): `{ len, step, offset }`. -/
structure Equidistant where
  len : ℕ
  step : ℚ
  offset : ℚ
deriving DecidableEq

/-- `Equidistant::normalized` (list.rs:421-427):
`step = from_usize(len - 1).recip()`, `offset = 0`.  The `usize` subtraction
`len - 1` underflows (panics) for `len = 0`; for `len = 1` the reciprocal of
zero is `inf` in `f64` — not a panic — modelled by the `ℚ` junk value `0⁻¹ = 0`. -/
def Equidistant.normalized (len : ℕ) : Option Equidistant :=
  match sub? len 1 with
  | none => none
  | some m => some ⟨len, ((m : ℚ))⁻¹, 0⟩

/-- `Equidistant::new` (list.rs:434-440): `step = (end - start)/from_usize(len - 1)`,
`offset = start`.  Same `len = 0` underflow; for `len = 1` the `f64` division
by zero is `inf`/`NaN`, not a panic. -/
def Equidistant.new (start stop : ℚ) (len : ℕ) : Option Equidistant :=
  match sub? len 1 with
  | none => none
  | some m => some ⟨len, (stop - start) / (m : ℚ), start⟩

/-- `Generator::gen` for `Equidistant` (list.rs:443-450):
`step * from_usize(input) + offset`. -/
def Equidistant.gen (E : Equidistant) (i : ℕ) : ℚ := E.step * (i : ℚ) + E.offset

/-- The sequence of elements an `Equidistant` generates. -/
def Equidistant.toList (E : Equidistant) : List ℚ :=
  (List.range E.len).map E.gen

/-- Specialised `SortedList::upper_border_with_factor` for `Equidistant`
(list.rs:492-501): `scaled = element / step` (note: the offset is *not*
subtracted), `min = scaled.floor().to_usize().unwrap().max(0)`,
`max = scaled.ceil().to_usize().unwrap().min(len - 1)`, `factor = scaled.fract()`. -/
def Equidistant.upper_border_with_factor (E : Equidistant) (q : ℚ) :
    Option (ℕ × ℕ × ℚ) :=
  let scaled := q / E.step
  match toUsize? (Rat.floor scaled) with
  | none => none
  | some f =>
    match toUsize? (rceil scaled) with
    | none => none
    | some c => some (max f 0, min c (E.len - 1), fract scaled)

/-- `ConstEquidistant` (list.rs:514-517): stores only the length. -/
structure ConstEquidistant where
  len : ℕ
deriving DecidableEq

/-- `Generator::gen` for `ConstEquidistant` (list.rs:531-538):
`from_usize(input) / from_usize(len - 1)`. -/
def ConstEquidistant.gen (E : ConstEquidistant) (i : ℕ) : ℚ :=
  (i : ℚ) / ((E.len - 1 : ℕ) : ℚ)

/-- The sequence of elements a `ConstEquidistant` generates. -/
def ConstEquidistant.toList (E : ConstEquidistant) : List ℚ :=
  (List.range E.len).map E.gen

/-- Specialised `SortedList::upper_border_with_factor` for
`NonEmpty<ConstEquidistant>` (list.rs:572-581):
`scaled = element * from_usize(len() - 1)`, then floor/ceil/fract as in the
`Equidistant` implementation. -/
def ConstEquidistant.upper_border_with_factor (E : ConstEquidistant) (q : ℚ) :
    Option (ℕ × ℕ × ℚ) :=
  let scaled := q * ((E.len - 1 : ℕ) : ℚ)
  match toUsize? (Rat.floor scaled) with
  | none => none
  | some f =>
    match toUsize? (rceil scaled) with
    | none => none
    | some c => some (max f 0, min c (E.len - 1), fract scaled)

/-! ### Helper lemmas -/

lemma gen_eq_get (S : List ℚ) (i : ℕ) (h : i < S.length) :
    gen S i = S.get ⟨i, h⟩ := by
  simp [gen, List.getD_eq_getElem?_getD, List.getElem?_eq_getElem h]

lemma sorted_loop_iff (S : List ℚ) :
    ∀ (fuel i : ℕ) (last : ℚ),
      sorted_loop S last i fuel = true ↔
        ((0 < fuel → last ≤ gen S i) ∧
          ∀ k, k + 1 < fuel → gen S (i + k) ≤ gen S (i + k + 1)) := by
  intro fuel
  induction fuel with
  | zero =>
    intro i last
    simp only [sorted_loop]
    constructor
    · intro _
      exact ⟨fun h => absurd h (by omega), fun k hk => absurd hk (by omega)⟩
    · intro _; trivial
  | succ fuel ih =>
    intro i last
    simp only [sorted_loop]
    by_cases h : last ≤ gen S i
    · rw [if_pos h, ih]
      constructor
      · rintro ⟨h1, h2⟩
        refine ⟨fun _ => h, fun k hk => ?_⟩
        cases k with
        | zero =>
          have := h1 (by omega)
          simpa using this
        | succ k =>
          have hk' : k + 1 < fuel := by omega
          have := h2 k hk'
          have e1 : i + (k + 1) = i + 1 + k := by omega
          rw [e1]; exact this
      · rintro ⟨_, h2⟩
        refine ⟨fun hf => ?_, fun k hk => ?_⟩
        · have := h2 0 (by omega)
          simpa using this
        · have := h2 (k + 1) (by omega)
          have e1 : i + (k + 1) = i + 1 + k := by omega
          rw [e1] at this; exact this
    · rw [if_neg h]
      constructor
      · intro hcontra; exact absurd hcontra (by simp)
      · rintro ⟨h1, _⟩; exact absurd (h1 (by omega)) h

lemma sorted_new_iff (S : List ℚ) :
    Sorted.new S = some S ↔ ∀ i, i + 1 < S.length → gen S i ≤ gen S (i + 1) := by
  unfold Sorted.new
  by_cases h0 : S.length = 0
  · rw [if_pos h0]
    constructor
    · intro _ i hi
      rw [h0] at hi
      exact absurd hi (by omega)
    · intro _; rfl
  · rw [if_neg h0]
    by_cases hb : sorted_loop S (gen S 0) 1 (S.length - 1) = true
    · rw [if_pos hb]
      refine ⟨fun _ => ?_, fun _ => rfl⟩
      rw [sorted_loop_iff] at hb
      obtain ⟨h1, h2⟩ := hb
      intro i hi
      cases i with
      | zero => exact h1 (by omega)
      | succ k =>
        have := h2 k (by omega)
        have e1 : 1 + k = k + 1 := by omega
        rw [e1] at this
        exact this
    · rw [if_neg hb]
      constructor
      · intro hcontra; exact absurd hcontra (by simp)
      intro hadj
      exfalso
      apply hb
      rw [sorted_loop_iff]
      refine ⟨fun _ => hadj 0 (by omega), fun k hk => ?_⟩
      have := hadj (k + 1) (by omega)
      have e1 : 1 + k = k + 1 := by omega
      rw [e1]
      exact this

lemma gen_mono_of_adj (S : List ℚ)
    (h : ∀ i, i + 1 < S.length → gen S i ≤ gen S (i + 1)) :
    ∀ i j, i ≤ j → j < S.length → gen S i ≤ gen S j := by
  intro i j hij
  induction j, hij using Nat.le_induction with
  | base => intro _; exact le_refl _
  | succ n hn ih => intro hn1; exact le_trans (ih (by omega)) (h n hn1)

lemma sorted_new_mono (S : List ℚ) (hsort : Sorted.new S = some S) :
    ∀ i j, i ≤ j → j < S.length → gen S i ≤ gen S j :=
  gen_mono_of_adj S ((sorted_new_iff S).mp hsort)

lemma upper_border_loop_spec (S : List ℚ) (q : ℚ) :
    ∀ (fuel mn mx : ℕ), mn < mx → mx ≤ S.length - 1 → mx - mn ≤ fuel →
      (mn = 0 ∨ gen S mn ≤ q) → (mx = S.length - 1 ∨ q < gen S mx) →
      ∃ a, upper_border_loop S q fuel mn mx = (a, a + 1) ∧
        mn ≤ a ∧ a + 1 ≤ mx ∧
        (a = 0 ∨ gen S a ≤ q) ∧ (a + 1 = S.length - 1 ∨ q < gen S (a + 1)) := by
  intro fuel
  induction fuel with
  | zero => intro mn mx h1 _ h3 _ _; omega
  | succ fuel ih =>
    intro mn mx h1 h2 h3 hmn hmx
    simp only [upper_border_loop]
    split_ifs with hgt hlt
    · obtain ⟨a, heq, hA, hB, hC, hD⟩ :=
        ih mn (mn + (mx - mn) / 2) (by omega) (by omega) (by omega) hmn (Or.inr hlt)
      exact ⟨a, heq, hA, by omega, hC, hD⟩
    · push_neg at hlt
      obtain ⟨a, heq, hA, hB, hC, hD⟩ :=
        ih (mn + (mx - mn) / 2) mx (by omega) h2 (by omega) (Or.inr hlt) hmx
      exact ⟨a, heq, by omega, hB, hC, hD⟩
    · have hmx1 : mx = mn + 1 := by omega
      subst hmx1
      exact ⟨mn, rfl, le_refl _, le_refl _, hmn, hmx⟩

lemma lower_border_loop_spec (S : List ℚ) (q : ℚ) :
    ∀ (fuel mn mx : ℕ), mn < mx → mx ≤ S.length - 1 → mx - mn ≤ fuel →
      (mn = 0 ∨ gen S mn < q) → (mx = S.length - 1 ∨ q ≤ gen S mx) →
      ∃ a, lower_border_loop S q fuel mn mx = (a, a + 1) ∧
        mn ≤ a ∧ a + 1 ≤ mx ∧
        (a = 0 ∨ gen S a < q) ∧ (a + 1 = S.length - 1 ∨ q ≤ gen S (a + 1)) := by
  intro fuel
  induction fuel with
  | zero => intro mn mx h1 _ h3 _ _; omega
  | succ fuel ih =>
    intro mn mx h1 h2 h3 hmn hmx
    simp only [lower_border_loop]
    split_ifs with hgt hlt
    · obtain ⟨a, heq, hA, hB, hC, hD⟩ :=
        ih (mn + (mx - mn) / 2) mx (by omega) h2 (by omega) (Or.inr hlt) hmx
      exact ⟨a, heq, by omega, hB, hC, hD⟩
    · push_neg at hlt
      obtain ⟨a, heq, hA, hB, hC, hD⟩ :=
        ih mn (mn + (mx - mn) / 2) (by omega) (by omega) (by omega) hmn (Or.inr hlt)
      exact ⟨a, heq, hA, by omega, hC, hD⟩
    · have hmx1 : mx = mn + 1 := by omega
      subst hmx1
      exact ⟨mn, rfl, le_refl _, le_refl _, hmn, hmx⟩

lemma upper_border_spec (S : List ℚ) (q : ℚ) (h2 : 2 ≤ S.length) :
    ∃ a, upper_border S q = some (a, a + 1) ∧ a + 1 ≤ S.length - 1 ∧
      (a = 0 ∨ gen S a ≤ q) ∧ (a + 1 = S.length - 1 ∨ q < gen S (a + 1)) := by
  obtain ⟨a, heq, _, hB, hC, hD⟩ :=
    upper_border_loop_spec S q S.length 0 (S.length - 1)
      (by omega) (le_refl _) (by omega) (Or.inl rfl) (Or.inl rfl)
  refine ⟨a, ?_, hB, hC, hD⟩
  unfold upper_border sub?
  rw [if_pos (by omega : 1 ≤ S.length)]
  exact congrArg some heq

lemma lower_border_spec (S : List ℚ) (q : ℚ) (h2 : 2 ≤ S.length) :
    ∃ a, lower_border S q = some (a, a + 1) ∧ a + 1 ≤ S.length - 1 ∧
      (a = 0 ∨ gen S a < q) ∧ (a + 1 = S.length - 1 ∨ q ≤ gen S (a + 1)) := by
  obtain ⟨a, heq, _, hB, hC, hD⟩ :=
    lower_border_loop_spec S q S.length 0 (S.length - 1)
      (by omega) (le_refl _) (by omega) (Or.inl rfl) (Or.inl rfl)
  refine ⟨a, ?_, by omega, hC, hD⟩
  unfold lower_border sub?
  rw [if_pos (by omega : 1 ≤ S.length)]
  exact congrArg some heq

lemma upper_border_singleton (S : List ℚ) (q : ℚ) (h1 : S.length = 1) :
    upper_border S q = some (0, 0) := by
  unfold upper_border sub?
  rw [if_pos (by omega : 1 ≤ S.length), h1]
  simp [upper_border_loop]

lemma lower_border_singleton (S : List ℚ) (q : ℚ) (h1 : S.length = 1) :
    lower_border S q = some (0, 0) := by
  unfold lower_border sub?
  rw [if_pos (by omega : 1 ≤ S.length), h1]
  simp [lower_border_loop]

lemma lower_bound_spec (S : List ℚ) (q : ℚ)
    (hs : ∀ i j, i ≤ j → j < S.length → gen S i ≤ gen S j) (hne : S ≠ []) :
    ∃ i, lower_bound S q = some i ∧ i < S.length ∧
      (∀ j, j < S.length → gen S j ≤ q → j ≤ i) ∧ (gen S i ≤ q ∨ i = 0) := by
  have hlen : 1 ≤ S.length := by
    have := List.length_pos.mpr hne
    omega
  have hred : lower_bound S q =
      if gen S (S.length - 1) ≤ q then some (S.length - 1)
      else (upper_border S q).map (fun p => p.1) := by
    unfold lower_bound sub?
    rw [if_pos hlen]
  rw [hred]
  by_cases hlast : gen S (S.length - 1) ≤ q
  · rw [if_pos hlast]
    exact ⟨S.length - 1, rfl, by omega, fun j hj _ => by omega, Or.inl hlast⟩
  · rw [if_neg hlast]
    push_neg at hlast
    by_cases h1 : S.length = 1
    · rw [upper_border_singleton S q h1]
      exact ⟨0, rfl, by omega, fun j hj _ => by omega, Or.inr rfl⟩
    · obtain ⟨a, heq, hB, hC, hD⟩ := upper_border_spec S q (by omega)
      rw [heq]
      have hqa1 : q < gen S (a + 1) := by
        rcases hD with h | h
        · rw [h]; exact hlast
        · exact h
      refine ⟨a, rfl, by omega, fun j hj hjq => ?_, hC.symm⟩
      by_contra hja
      push_neg at hja
      have : gen S (a + 1) ≤ gen S j := hs (a + 1) j (by omega) hj
      have : gen S (a + 1) ≤ q := le_trans this hjq
      exact absurd this (not_le.mpr hqa1)

lemma upper_bound_spec (S : List ℚ) (q : ℚ)
    (hs : ∀ i j, i ≤ j → j < S.length → gen S i ≤ gen S j) (hne : S ≠ []) :
    ∃ i, upper_bound S q = some i ∧ i < S.length ∧
      (∀ j, j < S.length → q ≤ gen S j → i ≤ j) ∧
      (q ≤ gen S i ∨ i = S.length - 1) := by
  have hlen : 1 ≤ S.length := by
    have := List.length_pos.mpr hne
    omega
  have hgen0 : gen? S 0 = some (gen S 0) := by
    rw [gen?, dif_pos (by omega : 0 < S.length)]
    rw [gen_eq_get S 0 (by omega)]
  have hred : upper_bound S q =
      if q ≤ gen S 0 then some 0
      else (lower_border S q).map (fun p => p.2) := by
    unfold upper_bound
    rw [hgen0]
  rw [hred]
  by_cases hfirst : q ≤ gen S 0
  · rw [if_pos hfirst]
    exact ⟨0, rfl, by omega, fun j hj _ => by omega, Or.inl hfirst⟩
  · rw [if_neg hfirst]
    push_neg at hfirst
    by_cases h1 : S.length = 1
    · rw [lower_border_singleton S q h1]
      exact ⟨0, rfl, by omega, fun j hj _ => by omega, Or.inr (by omega)⟩
    · obtain ⟨a, heq, hB, hC, hD⟩ := lower_border_spec S q (by omega)
      rw [heq]
      have hqa : gen S a < q := by
        rcases hC with h | h
        · rw [h]; exact hfirst
        · exact h
      refine ⟨a + 1, rfl, by omega, fun j hj hjq => ?_, hD.symm⟩
      by_contra hja
      push_neg at hja
      have : gen S j ≤ gen S a := hs j a (by omega) (by omega)
      have : q ≤ gen S a := le_trans hjq this
      exact absurd this (not_le.mpr hqa)

lemma strict_upper_bound_loop_spec (S : List ℚ) (q : ℚ)
    (hs : ∀ i j, i ≤ j → j < S.length → gen S i ≤ gen S j) :
    ∀ (fuel pointer count : ℕ), pointer + count ≤ S.length → count ≤ fuel →
      (∀ j, j < pointer → gen S j ≤ q) →
      (∀ j, pointer + count ≤ j → j < S.length → q < gen S j) →
      strict_upper_bound_loop S q fuel pointer count ≤ S.length ∧
        (∀ j, j < S.length →
          (gen S j ≤ q ↔ j < strict_upper_bound_loop S q fuel pointer count)) := by
  intro fuel
  induction fuel with
  | zero =>
    intro pointer count hpc hcf hpre hsuf
    have hc0 : count = 0 := by omega
    subst hc0
    simp only [strict_upper_bound_loop]
    refine ⟨by omega, fun j hj => ⟨fun hle => ?_, fun hlt => hpre j hlt⟩⟩
    by_contra hge
    push_neg at hge
    exact absurd hle (not_le.mpr (hsuf j (by omega) hj))
  | succ fuel ih =>
    intro pointer count hpc hcf hpre hsuf
    simp only [strict_upper_bound_loop]
    split_ifs with hpos hsample
    · -- gen S (pointer + count / 2) ≤ q : move right
      refine ih (pointer + count / 2 + 1) (count - (count / 2 + 1))
        (by omega) (by omega) (fun j hj => ?_) (fun j hj1 hj2 => ?_)
      · rcases Nat.lt_or_ge j pointer with h | h
        · exact hpre j h
        · exact le_trans (hs j (pointer + count / 2) (by omega) (by omega)) hsample
      · exact hsuf j (by omega) hj2
    · -- q < gen S (pointer + count / 2) : move left
      push_neg at hsample
      refine ih pointer (count / 2) (by omega) (by omega) hpre
        (fun j hj1 hj2 => ?_)
      exact lt_of_lt_of_le hsample (hs (pointer + count / 2) j (by omega) hj2)
    · have hc0 : count = 0 := by omega
      subst hc0
      refine ⟨by omega, fun j hj => ⟨fun hle => ?_, fun hlt => hpre j hlt⟩⟩
      by_contra hge
      push_neg at hge
      exact absurd hle (not_le.mpr (hsuf j (by omega) hj))

lemma ratFloor_eq_floor (x : ℚ) : Rat.floor x = ⌊x⌋ := by
  rw [Rat.floor_def', Rat.floor_def]

lemma rceil_eq_ceil (x : ℚ) : rceil x = ⌈x⌉ := by
  rw [rceil, ratFloor_eq_floor, Int.floor_neg, neg_neg]

lemma fract_of_nonneg (x : ℚ) (h : 0 ≤ x) : fract x = x - (⌊x⌋ : ℚ) := by
  rw [fract, if_pos h, ratFloor_eq_floor]

lemma ceil_eq_floor_add_one_of_ne (x : ℚ) (h : ((⌊x⌋ : ℤ) : ℚ) ≠ x) :
    ⌈x⌉ = ⌊x⌋ + 1 := by
  have h1 : ((⌊x⌋ : ℤ) : ℚ) < x := lt_of_le_of_ne (Int.floor_le x) h
  have h2 : ⌈x⌉ ≤ ⌊x⌋ + 1 := by
    apply Int.ceil_le.mpr
    push_cast
    exact le_of_lt (Int.lt_floor_add_one x)
  have h3 : ⌊x⌋ < ⌈x⌉ := by
    have hc := Int.le_ceil x
    have : ((⌊x⌋ : ℤ) : ℚ) < ((⌈x⌉ : ℤ) : ℚ) := lt_of_lt_of_le h1 hc
    exact_mod_cast this
  omega

lemma upper_border_eq_of_bracket (S : List ℚ) (q : ℚ)
    (hs : ∀ i j, i ≤ j → j < S.length → gen S i ≤ gen S j)
    (a : ℕ) (ha : a + 1 ≤ S.length - 1) (h1 : gen S a ≤ q) (h2 : q < gen S (a + 1)) :
    upper_border S q = some (a, a + 1) := by
  have h2len : 2 ≤ S.length := by omega
  obtain ⟨b, hb, hble, hb0, hb1⟩ := upper_border_spec S q h2len
  have hba : b = a := by
    rcases Nat.lt_trichotomy b a with hlt | heq | hgt
    · exfalso
      rcases hb1 with hEq | hq
      · omega
      · have : gen S (b + 1) ≤ gen S a := hs (b + 1) a (by omega) (by omega)
        linarith
    · exact heq
    · exfalso
      rcases hb0 with rfl | hq
      · omega
      · have : gen S (a + 1) ≤ gen S b := hs (a + 1) b (by omega) (by omega)
        linarith
  rw [hba] at hb
  exact hb

lemma upper_border_with_factor_of_bracket (S : List ℚ) (q : ℚ)
    (hs : ∀ i j, i ≤ j → j < S.length → gen S i ≤ gen S j)
    (a : ℕ) (ha : a + 1 ≤ S.length - 1) (h1 : gen S a ≤ q) (h2 : q < gen S (a + 1)) :
    upper_border_with_factor S q =
      some (a, a + 1, (q - gen S a) / (gen S (a + 1) - gen S a)) := by
  have hub := upper_border_eq_of_bracket S q hs a ha h1 h2
  have hlen : a + 1 < S.length := by omega
  unfold upper_border_with_factor factor gen?
  rw [hub]
  simp only [dif_pos hlen, dif_pos (show a < S.length by omega)]
  rw [← gen_eq_get S (a + 1) hlen, ← gen_eq_get S a (by omega : a < S.length)]

lemma Equidistant.toList_length (E : Equidistant) : E.toList.length = E.len := by
  simp [Equidistant.toList]

lemma Equidistant.gen_toList (E : Equidistant) (i : ℕ) (h : i < E.len) :
    Enterpolation.gen E.toList i = E.gen i := by
  rw [gen_eq_get _ _ (by rw [E.toList_length]; exact h)]
  simp [Equidistant.toList]

lemma Equidistant.toList_mono (E : Equidistant) (hstep : 0 ≤ E.step) :
    ∀ i j, i ≤ j → j < E.toList.length →
      Enterpolation.gen E.toList i ≤ Enterpolation.gen E.toList j := by
  intro i j hij hj
  rw [E.toList_length] at hj
  rw [E.gen_toList i (by omega), E.gen_toList j hj]
  unfold Equidistant.gen
  have hc : (i : ℚ) ≤ (j : ℚ) := by exact_mod_cast hij
  have := mul_le_mul_of_nonneg_left hc hstep
  linarith

lemma equid_ubwf_agree (n : ℕ) (s q : ℚ) (hn : 2 ≤ n) (hs : 0 < s)
    (hq0 : 0 < q) (hq1 : q < s * ((n - 1 : ℕ) : ℚ))
    (hni : ((Rat.floor (q / s) : ℤ) : ℚ) ≠ q / s) :
    Equidistant.upper_border_with_factor ⟨n, s, 0⟩ q =
      upper_border_with_factor (Equidistant.toList ⟨n, s, 0⟩) q := by
  have hsne : s ≠ 0 := ne_of_gt hs
  set x := q / s with hx
  rw [ratFloor_eq_floor] at hni
  have hx0 : 0 < x := div_pos hq0 hs
  have hxlt : x < ((n - 1 : ℕ) : ℚ) := by
    rw [hx, div_lt_iff₀ hs, mul_comm]
    exact hq1
  have hfl0 : 0 ≤ ⌊x⌋ := Int.floor_nonneg.mpr (le_of_lt hx0)
  have hflt : ⌊x⌋ < (n : ℤ) - 1 := by
    apply Int.floor_lt.mpr
    have : (((n : ℤ) - 1 : ℤ) : ℚ) = ((n - 1 : ℕ) : ℚ) := by
      push_cast [Nat.cast_sub (by omega : 1 ≤ n)]
      ring
    rw [this]
    exact hxlt
  set a := ⌊x⌋.toNat with hadef
  have hcast : (a : ℤ) = ⌊x⌋ := Int.toNat_of_nonneg hfl0
  have haQ : ((a : ℕ) : ℚ) = ((⌊x⌋ : ℤ) : ℚ) := by exact_mod_cast congrArg Int.cast hcast
  have hstrict : ((a : ℕ) : ℚ) < x := by
    rw [haQ]
    exact lt_of_le_of_ne (Int.floor_le x) hni
  have hupper : x < ((a : ℕ) : ℚ) + 1 := by
    rw [haQ]
    exact Int.lt_floor_add_one x
  have ha1n : a + 1 ≤ n - 1 := by omega
  -- the element bracket on the generated list
  have hga : Equidistant.gen ⟨n, s, 0⟩ a ≤ q := by
    show s * ((a : ℕ) : ℚ) + 0 ≤ q
    have : ((a : ℕ) : ℚ) * s < q := by
      rw [hx] at hstrict
      exact (lt_div_iff₀ hs).mp hstrict
    linarith [this]
  have hga1 : q < Equidistant.gen ⟨n, s, 0⟩ (a + 1) := by
    show q < s * ((a + 1 : ℕ) : ℚ) + 0
    have : q < (((a : ℕ) : ℚ) + 1) * s := by
      rw [hx] at hupper
      exact (div_lt_iff₀ hs).mp hupper
    push_cast
    linarith [this]
  have hlistlen : (Equidistant.toList ⟨n, s, 0⟩).length = n :=
    Equidistant.toList_length _
  have hmono := Equidistant.toList_mono ⟨n, s, 0⟩ (le_of_lt hs)
  have hgen_a : Enterpolation.gen (Equidistant.toList ⟨n, s, 0⟩) a =
      Equidistant.gen ⟨n, s, 0⟩ a :=
    Equidistant.gen_toList _ a (by show a < n; omega)
  have hgen_a1 : Enterpolation.gen (Equidistant.toList ⟨n, s, 0⟩) (a + 1) =
      Equidistant.gen ⟨n, s, 0⟩ (a + 1) :=
    Equidistant.gen_toList _ (a + 1) (by show a + 1 < n; omega)
  -- the generic side
  have hgeneric := upper_border_with_factor_of_bracket (Equidistant.toList ⟨n, s, 0⟩) q
    hmono a (by rw [hlistlen]; omega) (by rw [hgen_a]; exact hga)
    (by rw [hgen_a1]; exact hga1)
  rw [hgeneric, hgen_a, hgen_a1]
  -- the specialised side
  have hceil : ⌈x⌉ = ⌊x⌋ + 1 := ceil_eq_floor_add_one_of_ne x hni
  have htoN1 : (⌊x⌋ + 1).toNat = a + 1 := by omega
  unfold Equidistant.upper_border_with_factor toUsize?
  simp only [ratFloor_eq_floor, rceil_eq_ceil]
  rw [← hx, hceil]
  rw [if_pos hfl0, if_pos (by omega : (0 : ℤ) ≤ ⌊x⌋ + 1)]
  have hmax : max ⌊x⌋.toNat 0 = a := by omega
  have hmin : min ((⌊x⌋ + 1).toNat) (n - 1) = a + 1 := by omega
  -- both sides are `some (a, a+1, _)`; identify the factors
  have hfac : fract x =
      (q - Equidistant.gen ⟨n, s, 0⟩ a) /
        (Equidistant.gen ⟨n, s, 0⟩ (a + 1) - Equidistant.gen ⟨n, s, 0⟩ a) := by
    rw [fract_of_nonneg x (le_of_lt hx0), ← haQ]
    show x - ((a : ℕ) : ℚ) =
      (q - (s * ((a : ℕ) : ℚ) + 0)) / ((s * ((a + 1 : ℕ) : ℚ) + 0) - (s * ((a : ℕ) : ℚ) + 0))
    push_cast
    rw [hx]
    have hden : s * (((a : ℕ) : ℚ) + 1) + 0 - (s * ((a : ℕ) : ℚ) + 0) = s := by ring
    rw [hden, eq_div_iff hsne, sub_mul, div_mul_cancel₀ _ hsne]
    ring
  show some (max (⌊x⌋.toNat) 0, min ((⌊x⌋ + 1).toNat) (n - 1), fract x) =
    some (a, a + 1,
      (q - Equidistant.gen ⟨n, s, 0⟩ a) /
        (Equidistant.gen ⟨n, s, 0⟩ (a + 1) - Equidistant.gen ⟨n, s, 0⟩ a))
  rw [hmax, hmin, hfac]

lemma const_toList_eq (n : ℕ) :
    ConstEquidistant.toList ⟨n⟩ =
      Equidistant.toList ⟨n, ((n - 1 : ℕ) : ℚ)⁻¹, 0⟩ := by
  unfold ConstEquidistant.toList Equidistant.toList
  apply List.map_congr_left
  intro i _
  show (i : ℚ) / ((n - 1 : ℕ) : ℚ) = ((n - 1 : ℕ) : ℚ)⁻¹ * (i : ℚ) + 0
  rw [div_eq_inv_mul]
  ring

lemma const_ubwf_eq (n : ℕ) (q : ℚ) :
    ConstEquidistant.upper_border_with_factor ⟨n⟩ q =
      Equidistant.upper_border_with_factor ⟨n, ((n - 1 : ℕ) : ℚ)⁻¹, 0⟩ q := by
  unfold ConstEquidistant.upper_border_with_factor Equidistant.upper_border_with_factor
  have : q / ((n - 1 : ℕ) : ℚ)⁻¹ = q * ((n - 1 : ℕ) : ℚ) := div_inv_eq_mul q ((n - 1 : ℕ) : ℚ)
  simp only [this]

lemma strict_upper_bound_spec (S : List ℚ) (q : ℚ)
    (hs : ∀ i j, i ≤ j → j < S.length → gen S i ≤ gen S j) :
    strict_upper_bound S q ≤ S.length ∧
      ∀ j, j < S.length → (gen S j ≤ q ↔ j < strict_upper_bound S q) := by
  unfold strict_upper_bound
  exact strict_upper_bound_loop_spec S q hs S.length 0 S.length
    (by omega) (le_refl _) (fun j hj => by omega) (fun j hj1 hj2 => by omega)

/-! ### Claim theorems -/

/-- C2: for every sorted (accepted by the crate's own sortedness checker),
non-empty sequence `S` and query `q`, `lower_bound` returns an index `i` that
is the largest index with `S[i] ≤ q`, clamped to `[0, n-1]`: every index whose
element is `≤ q` is `≤ i`, `i` itself satisfies `S[i] ≤ q` unless clamped to
`0`, `q ≥ S[n-1]` yields `n-1`, a query below every element yields `0`, and an
exact match on a duplicate run yields the last duplicate's index. -/
theorem lower_bound_largest_le_index (S : List ℚ) (q : ℚ)
    (hsort : Sorted.new S = some S) (hne : S ≠ []) :
    (lower_bound S q).isSome = true ∧
    ∀ i, lower_bound S q = some i →
      i < S.length ∧
      (∀ j, j < S.length → gen S j ≤ q → j ≤ i) ∧
      (gen S i ≤ q ∨ i = 0) ∧
      (gen S (S.length - 1) ≤ q → i = S.length - 1) ∧
      ((∀ j, j < S.length → q < gen S j) → i = 0) ∧
      (∀ j, j < S.length → gen S j = q → gen S i = q ∧ j ≤ i) := by
  have hs := sorted_new_mono S hsort
  obtain ⟨i0, heq, hlt, hmax, hsat⟩ := lower_bound_spec S q hs hne
  refine ⟨by rw [heq]; rfl, fun i hi => ?_⟩
  rw [heq] at hi
  have hii : i = i0 := (Option.some.inj hi).symm
  subst hii
  refine ⟨hlt, hmax, hsat, ?_, ?_, ?_⟩
  · intro hlast
    have := hmax (S.length - 1) (by omega) hlast
    omega
  · intro hbelow
    rcases hsat with h | h
    · exact absurd h (not_le.mpr (hbelow i hlt))
    · exact h
  · intro j hj hjq
    have hji : j ≤ i := hmax j hj (le_of_eq hjq)
    refine ⟨?_, hji⟩
    rcases hsat with h | h
    · have h2 : gen S j ≤ gen S i := hs j i hji hlt
      rw [hjq] at h2
      exact le_antisymm h h2
    · subst h
      have hj0 : j = 0 := by omega
      rw [← hj0]
      exact hjq

/-- Witness for C2 on the (integer-scaled) boundary scenario sequence. -/
theorem lower_bound_largest_le_index_witness :
    (lower_bound [0, 1, 2, 7, 7, 7, 8, 10] 7).isSome = true :=
  (lower_bound_largest_le_index [0, 1, 2, 7, 7, 7, 8, 10] 7
    (by decide) (by decide)).1

/-- C3: for every sorted, non-empty sequence `S` and query `q`, `upper_bound`
returns an index `i` that is the smallest index with `S[i] ≥ q`, clamped to
`[0, n-1]`: every index whose element is `≥ q` is `≥ i`, `i` itself satisfies
`S[i] ≥ q` unless clamped to `n-1`, `q ≤ S[0]` yields `0`, a query above every
element yields `n-1`, and an exact match on a duplicate run yields the first
duplicate's index. -/
theorem upper_bound_smallest_ge_index (S : List ℚ) (q : ℚ)
    (hsort : Sorted.new S = some S) (hne : S ≠ []) :
    (upper_bound S q).isSome = true ∧
    ∀ i, upper_bound S q = some i →
      i < S.length ∧
      (∀ j, j < S.length → q ≤ gen S j → i ≤ j) ∧
      (q ≤ gen S i ∨ i = S.length - 1) ∧
      (q ≤ gen S 0 → i = 0) ∧
      ((∀ j, j < S.length → gen S j < q) → i = S.length - 1) ∧
      (∀ j, j < S.length → gen S j = q → gen S i = q ∧ i ≤ j) := by
  have hs := sorted_new_mono S hsort
  obtain ⟨i0, heq, hlt, hmin, hsat⟩ := upper_bound_spec S q hs hne
  refine ⟨by rw [heq]; rfl, fun i hi => ?_⟩
  rw [heq] at hi
  have hii : i = i0 := (Option.some.inj hi).symm
  subst hii
  refine ⟨hlt, hmin, hsat, ?_, ?_, ?_⟩
  · intro hfirst
    have := hmin 0 (by omega) hfirst
    omega
  · intro habove
    rcases hsat with h | h
    · exact absurd h (not_le.mpr (habove i hlt))
    · exact h
  · intro j hj hjq
    have hij : i ≤ j := hmin j hj (ge_of_eq hjq)
    refine ⟨?_, hij⟩
    rcases hsat with h | h
    · have h2 : gen S i ≤ gen S j := hs i j hij hj
      rw [hjq] at h2
      exact le_antisymm h2 h
    · have hjlast : j = S.length - 1 := by omega
      rw [h, ← hjlast]
      exact hjq

/-- Witness for C3 on the (integer-scaled) boundary scenario sequence. -/
theorem upper_bound_smallest_ge_index_witness :
    (upper_bound [0, 1, 2, 7, 7, 7, 8, 10] 7).isSome = true :=
  (upper_bound_smallest_ge_index [0, 1, 2, 7, 7, 7, 8, 10] 7
    (by decide) (by decide)).1

/-- C4 counterexample: on `S = [0, 1, 2, 7, 7, 7, 8, 10]` the claimed
inequality `lower_bound(q) ≤ upper_bound(q)` fails for the in-range duplicate
query `q = 7` (`lower_bound = 5 > 3 = upper_bound`), and the claimed equality
for `S[lower_bound(q)] ≠ q` fails for the in-range query `q = 3`
(`lower_bound = 2 ≠ 3 = upper_bound`). -/
theorem bound_order_claim_false :
    lower_bound [0, 1, 2, 7, 7, 7, 8, 10] 7 = some 5 ∧
    upper_bound [0, 1, 2, 7, 7, 7, 8, 10] 7 = some 3 ∧
    ¬((5 : ℕ) ≤ 3) ∧
    gen [0, 1, 2, 7, 7, 7, 8, 10] 0 ≤ 7 ∧
    (7 : ℚ) ≤ gen [0, 1, 2, 7, 7, 7, 8, 10] 7 ∧
    lower_bound [0, 1, 2, 7, 7, 7, 8, 10] 3 = some 2 ∧
    upper_bound [0, 1, 2, 7, 7, 7, 8, 10] 3 = some 3 ∧
    gen [0, 1, 2, 7, 7, 7, 8, 10] 2 ≠ 3 ∧
    (2 : ℕ) ≠ 3 ∧
    gen [0, 1, 2, 7, 7, 7, 8, 10] 0 ≤ 3 ∧
    (3 : ℚ) ≤ gen [0, 1, 2, 7, 7, 7, 8, 10] 7 := by decide

/-- C4 (amended): for every sorted, non-empty `S` and in-range query `q`
(`S[0] ≤ q ≤ S[n-1]`), the bounds satisfy `upper_bound(q) ≤ lower_bound(q) + 1`
(the claimed `lower_bound(q) ≤ upper_bound(q)` is false on duplicate runs),
and whenever `S[lower_bound(q)] ≠ q` they differ by exactly one:
`upper_bound(q) = lower_bound(q) + 1` (not `=` as claimed). -/
theorem upper_bound_le_lower_bound_succ (S : List ℚ) (q : ℚ)
    (hsort : Sorted.new S = some S) (hne : S ≠ [])
    (hlo : gen S 0 ≤ q) (hhi : q ≤ gen S (S.length - 1)) :
    (lower_bound S q).isSome = true ∧ (upper_bound S q).isSome = true ∧
    ∀ i1 i2, lower_bound S q = some i1 → upper_bound S q = some i2 →
      i2 ≤ i1 + 1 ∧ (gen S i1 ≠ q → i2 = i1 + 1) := by
  have hs := sorted_new_mono S hsort
  obtain ⟨j1, he1, hl1, hmax, hsat1⟩ := lower_bound_spec S q hs hne
  obtain ⟨j2, he2, hl2, hmin, hsat2⟩ := upper_bound_spec S q hs hne
  refine ⟨by rw [he1]; rfl, by rw [he2]; rfl, fun i1 i2 hi1 hi2 => ?_⟩
  rw [he1] at hi1
  rw [he2] at hi2
  have h1 : i1 = j1 := (Option.some.inj hi1).symm
  have h2 : i2 = j2 := (Option.some.inj hi2).symm
  subst h1
  subst h2
  have hS1 : gen S i1 ≤ q := by
    rcases hsat1 with h | h
    · exact h
    · rw [h]; exact hlo
  have hS2 : q ≤ gen S i2 := by
    rcases hsat2 with h | h
    · exact h
    · rw [h]; exact hhi
  have hle : i2 ≤ i1 + 1 := by
    by_cases hi1len : i1 + 1 < S.length
    · have hq1 : q < gen S (i1 + 1) := by
        by_contra hcon
        push_neg at hcon
        have := hmax (i1 + 1) hi1len hcon
        omega
      exact hmin (i1 + 1) hi1len (le_of_lt hq1)
    · omega
  refine ⟨hle, fun hne2 => ?_⟩
  have hlt' : gen S i1 < q := lt_of_le_of_ne hS1 hne2
  have : i1 < i2 := by
    by_contra hcon
    push_neg at hcon
    have : gen S i2 ≤ gen S i1 := hs i2 i1 hcon hl1
    linarith
  omega

/-- Witness for the amended C4 at the in-range non-matching query `q = 3`. -/
theorem upper_bound_le_lower_bound_succ_witness :
    (3 : ℕ) ≤ 2 + 1 ∧
      (gen [0, 1, 2, 7, 7, 7, 8, 10] 2 ≠ 3 → (3 : ℕ) = 2 + 1) :=
  (upper_bound_le_lower_bound_succ [0, 1, 2, 7, 7, 7, 8, 10] 3
    (by decide) (by decide) (by decide) (by decide)).2.2 2 3 (by decide) (by decide)

/-- C5: evaluation of every bound-finding operation on the empty sequence.
All panic (modelled `none`) except `strict_upper_bound`, which returns the
value `0` normally — its loop body never runs, so no indexing or underflow
occurs — contradicting the claim (and the function's own `# Panics` doc). -/
theorem empty_sequence_ops_eval :
    lower_bound [] 0 = none ∧ upper_bound [] 0 = none ∧
    upper_border [] 0 = none ∧ lower_border [] 0 = none ∧
    strict_lower_bound [] 0 = none ∧
    factor [] 0 1 0 = none ∧
    upper_border_with_factor [] 0 = none ∧
    strict_upper_bound [] 0 = 0 := by decide

/-- C6: evaluation showing `strict_lower_bound` broken on the sorted sequence
`S = [2, 4, 6]`.  For `q = 3` the largest index with `S[i] ≤ q` is `0` (which
is also `lower_border(q)[0]`, the value the function's own doc promises), yet
the function returns `2`; and for `q = 7` (above all elements), where the
claim demands `n-1 = 2`, the `usize` subtraction underflows instead (a panic,
modelled `none`). -/
theorem strict_lower_bound_eval_bug :
    Sorted.new [2, 4, 6] = some [2, 4, 6] ∧
    strict_lower_bound [2, 4, 6] 3 = some 2 ∧
    lower_border [2, 4, 6] 3 = some (0, 1) ∧
    gen [2, 4, 6] 0 ≤ 3 ∧ ¬(gen [2, 4, 6] 1 ≤ 3) ∧ ¬(gen [2, 4, 6] 2 ≤ 3) ∧
    strict_lower_bound [2, 4, 6] 7 = none := by decide

/-- C7: for every sorted sequence of length `n ≥ 2` and every query (including
out-of-range queries), both border operations return a pair `(a, a+1)` with
both indices in `[0, n-1]`; a query below all elements yields `(0, 1)` and a
query above all elements yields `(n-2, n-1)`. -/
theorem border_bracket_shape (S : List ℚ) (q : ℚ)
    (hsort : Sorted.new S = some S) (h2 : 2 ≤ S.length) :
    (upper_border S q).isSome = true ∧ (lower_border S q).isSome = true ∧
    (∀ a b, upper_border S q = some (a, b) → b = a + 1 ∧ b ≤ S.length - 1) ∧
    (∀ a b, lower_border S q = some (a, b) → b = a + 1 ∧ b ≤ S.length - 1) ∧
    ((∀ j, j < S.length → q < gen S j) →
      upper_border S q = some (0, 1) ∧ lower_border S q = some (0, 1)) ∧
    ((∀ j, j < S.length → gen S j < q) →
      upper_border S q = some (S.length - 2, S.length - 1) ∧
        lower_border S q = some (S.length - 2, S.length - 1)) := by
  obtain ⟨a, hau, haB, haC, haD⟩ := upper_border_spec S q h2
  obtain ⟨c, hcl, hcB, hcC, hcD⟩ := lower_border_spec S q h2
  refine ⟨by rw [hau]; rfl, by rw [hcl]; rfl, ?_, ?_, ?_, ?_⟩
  · intro x y hxy
    rw [hau] at hxy
    have hx : x = a := congrArg Prod.fst (Option.some.inj hxy) |>.symm
    have hy : y = a + 1 := congrArg Prod.snd (Option.some.inj hxy) |>.symm
    subst hx
    subst hy
    exact ⟨rfl, haB⟩
  · intro x y hxy
    rw [hcl] at hxy
    have hx : x = c := congrArg Prod.fst (Option.some.inj hxy) |>.symm
    have hy : y = c + 1 := congrArg Prod.snd (Option.some.inj hxy) |>.symm
    subst hx
    subst hy
    exact ⟨rfl, hcB⟩
  · intro hbelow
    constructor
    · have ha0 : a = 0 := by
        rcases haC with h | h
        · exact h
        · exact absurd h (not_le.mpr (hbelow a (by omega)))
      rw [hau, ha0]
    · have hc0 : c = 0 := by
        rcases hcC with h | h
        · exact h
        · exact absurd h (not_lt.mpr (le_of_lt (hbelow c (by omega))))
      rw [hcl, hc0]
  · intro habove
    constructor
    · have ha1 : a + 1 = S.length - 1 := by
        rcases haD with h | h
        · exact h
        · exact absurd h (not_lt.mpr (le_of_lt (habove (a + 1) (by omega))))
      rw [hau]
      have ha : a = S.length - 2 := by omega
      rw [ha, show S.length - 2 + 1 = S.length - 1 by omega]
    · have hc1 : c + 1 = S.length - 1 := by
        rcases hcD with h | h
        · exact h
        · exact absurd h (not_le.mpr (habove (c + 1) (by omega)))
      rw [hcl]
      have hc : c = S.length - 2 := by omega
      rw [hc, show S.length - 2 + 1 = S.length - 1 by omega]

/-- Witness for C7 at the in-range query `q = 3`. -/
theorem border_bracket_shape_witness :
    (3 : ℕ) = 2 + 1 ∧
      (3 : ℕ) ≤ ([0, 1, 2, 7, 7, 7, 8, 10] : List ℚ).length - 1 :=
  (border_bracket_shape [0, 1, 2, 7, 7, 7, 8, 10] 3
    (by decide) (by decide)).2.2.1 2 3 (by decide)

/-- C8: the checked constructors are total (they never panic) and signal
failure by returning nothing: `NonEmpty::new` returns `None` exactly when the
wrapped generator has length `0`, `Sorted::new` returns `Some` exactly when
the generated elements are non-strictly increasing (adjacent pairs
`element(i) ≤ element(i+1)`), and the empty generator is accepted by
`Sorted::new` (trivially sorted) while rejected by `NonEmpty::new`. -/
theorem checked_constructors_spec (S : List ℚ) :
    (NonEmpty.new S = none ↔ S.length = 0) ∧
    (Sorted.new S = some S ↔ ∀ i, i + 1 < S.length → gen S i ≤ gen S (i + 1)) ∧
    (S.length = 0 → Sorted.new S = some S ∧ NonEmpty.new S = none) := by
  refine ⟨?_, sorted_new_iff S, fun h0 => ⟨?_, ?_⟩⟩
  · unfold NonEmpty.new
    split_ifs with h
    · simp [h]
    · simp [h]
  · unfold Sorted.new
    rw [if_pos h0]
  · unfold NonEmpty.new
    rw [if_pos h0]

/-- Witness for C8 at the empty generator. -/
theorem checked_constructors_spec_witness :
    Sorted.new ([] : List ℚ) = some [] ∧ NonEmpty.new ([] : List ℚ) = none :=
  (checked_constructors_spec []).2.2 rfl

/-- C9 counterexample: both step-computing constructors, called with
`len = 1`, return a generator normally instead of panicking: the step
computation is an `f64` division by zero (yielding a non-finite step), not a
panic.  Only `len = 0` panics (the `usize` underflow in `len - 1`). -/
theorem equidistant_len_one_constructs :
    (Equidistant.normalized 1).isSome = true ∧
    (Equidistant.new 0 1 1).isSome = true ∧
    Equidistant.normalized 0 = none ∧
    Equidistant.new 0 1 0 = none := by
  refine ⟨?_, ?_, ?_, ?_⟩ <;> simp [Equidistant.normalized, Equidistant.new, sub?]

/-- C9 (amended): `Equidistant::normalized` and `Equidistant::new` panic
exactly when `len = 0` (the `usize` subtraction `len - 1` underflows); for
`len = 1` construction succeeds, the step being a floating-point division by
zero (non-finite), not a panic. -/
theorem equidistant_constructors_none_iff_len_zero :
    (∀ len : ℕ, (Equidistant.normalized len = none ↔ len = 0)) ∧
    (∀ (start stop : ℚ) (len : ℕ),
      (Equidistant.new start stop len = none ↔ len = 0)) := by
  constructor
  · intro len
    unfold Equidistant.normalized sub?
    split_ifs with h
    · constructor
      · intro hcon
        exact absurd hcon (by simp)
      · intro h0
        omega
    · constructor
      · intro _
        omega
      · intro _
        rfl
  · intro start stop len
    unfold Equidistant.new sub?
    split_ifs with h
    · constructor
      · intro hcon
        exact absurd hcon (by simp)
      · intro h0
        omega
    · constructor
      · intro _
        omega
      · intro _
        rfl

/-- Witness for the amended C9 at `len = 0` and `len = 1`. -/
theorem equidistant_constructors_none_iff_len_zero_witness :
    (Equidistant.normalized 0 = none ↔ (0 : ℕ) = 0) ∧
      (Equidistant.new 0 1 1 = none ↔ (1 : ℕ) = 0) :=
  ⟨equidistant_constructors_none_iff_len_zero.1 0,
    equidistant_constructors_none_iff_len_zero.2 0 1 1⟩

/-- C10: for every sorted, non-empty sequence `S`, `strict_upper_bound q` is
the number of elements `≤ q` (the smallest index whose element is strictly
greater than `q`): the elements `≤ q` are exactly those at indices below the
result, the result equals the cardinality of the set of such indices, and when
`q ≥ S[n-1]` the result is `n` — an out-of-range index, not clamped. -/
theorem strict_upper_bound_counts_le (S : List ℚ) (q : ℚ)
    (hsort : Sorted.new S = some S) (hne : S ≠ []) :
    strict_upper_bound S q ≤ S.length ∧
    (∀ j, j < S.length → (gen S j ≤ q ↔ j < strict_upper_bound S q)) ∧
    (Finset.filter (fun j => gen S j ≤ q) (Finset.range S.length)).card =
      strict_upper_bound S q ∧
    (gen S (S.length - 1) ≤ q → strict_upper_bound S q = S.length) := by
  have hs := sorted_new_mono S hsort
  obtain ⟨hle, hiff⟩ := strict_upper_bound_spec S q hs
  have hlen1 : 1 ≤ S.length := by
    have := List.length_pos.mpr hne
    omega
  refine ⟨hle, hiff, ?_, ?_⟩
  · have hset : Finset.filter (fun j => gen S j ≤ q) (Finset.range S.length) =
        Finset.range (strict_upper_bound S q) := by
      ext j
      simp only [Finset.mem_filter, Finset.mem_range]
      constructor
      · rintro ⟨hj, hq⟩
        exact (hiff j hj).mp hq
      · intro hj
        have hjlen : j < S.length := lt_of_lt_of_le hj hle
        exact ⟨hjlen, (hiff j hjlen).mpr hj⟩
    rw [hset, Finset.card_range]
  · intro hlast
    have hall : ∀ j, j < S.length → j < strict_upper_bound S q := fun j hj =>
      (hiff j hj).mp (le_trans (hs j (S.length - 1) (by omega) (by omega)) hlast)
    have := hall (S.length - 1) (by omega)
    omega

/-- Witness for C10: on `[1, 2, 3]` with `q = 4` every element is `≤ q` and
the result is `3 = n`, out of range. -/
theorem strict_upper_bound_counts_le_witness :
    strict_upper_bound [1, 2, 3] 4 = ([1, 2, 3] : List ℚ).length :=
  (strict_upper_bound_counts_le [1, 2, 3] 4 (by decide) (by decide)).2.2.2 (by decide)

/-- C1 counterexample: the specialised O(1) `upper_border_with_factor` does
not agree with the generic binary-search path run over the same elements.
For the constant-context normalized form with 3 knots (elements 0, 1/2, 1),
the exact-match in-range query `q = 1/2` yields `(1, 1, 0)` from the
specialisation but `(1, 2, 0)` from the generic path; for the range form
`new(10, 12, 3)` (elements 10, 11, 12), the in-range query `q = 11` yields
`(11, 2, 0)` — the specialisation divides the query by the step without
subtracting the offset, producing the out-of-range min index `11` — while the
generic path yields `(1, 2, 0)`. -/
theorem equidistant_ubwf_diverges_from_generic :
    ConstEquidistant.gen ⟨3⟩ 0 ≤ 1/2 ∧ (1/2 : ℚ) ≤ ConstEquidistant.gen ⟨3⟩ 2 ∧
    ConstEquidistant.toList ⟨3⟩ = [0, 1/2, 1] ∧
    ConstEquidistant.upper_border_with_factor ⟨3⟩ (1/2) = some (1, 1, 0) ∧
    upper_border_with_factor [0, 1/2, 1] (1/2) = some (1, 2, 0) ∧
    ((1, 1, (0 : ℚ)) ≠ (1, 2, (0 : ℚ))) ∧
    Equidistant.new 10 12 3 = some ⟨3, 1, 10⟩ ∧
    Equidistant.gen ⟨3, 1, 10⟩ 0 ≤ 11 ∧ (11 : ℚ) ≤ Equidistant.gen ⟨3, 1, 10⟩ 2 ∧
    Equidistant.toList ⟨3, 1, 10⟩ = [10, 11, 12] ∧
    Equidistant.upper_border_with_factor ⟨3, 1, 10⟩ 11 = some (11, 2, 0) ∧
    upper_border_with_factor [10, 11, 12] 11 = some (1, 2, 0) := by
  refine ⟨?_, ?_, ?_, ?_, ?_, ?_, ?_, ?_, ?_, ?_, ?_, ?_⟩
  · norm_num [ConstEquidistant.gen]
  · norm_num [ConstEquidistant.gen]
  · norm_num [ConstEquidistant.toList, ConstEquidistant.gen, List.range_succ]
  · norm_num [ConstEquidistant.upper_border_with_factor, toUsize?, rceil, fract,
      ratFloor_eq_floor, Int.toNat_ofNat]
  · norm_num [upper_border_with_factor, upper_border, upper_border_loop, factor,
      gen?, gen, sub?]
  · decide
  · norm_num [Equidistant.new, sub?, Equidistant.mk.injEq]
  · norm_num [Equidistant.gen]
  · norm_num [Equidistant.gen]
  · norm_num [Equidistant.toList, Equidistant.gen, List.range_succ]
  · norm_num [Equidistant.upper_border_with_factor, toUsize?, rceil, fract,
      ratFloor_eq_floor]
    decide
  · norm_num [upper_border_with_factor, upper_border, upper_border_loop, factor,
      gen?, gen, sub?]

/-- C1 (amended): the specialised `upper_border_with_factor` agrees with the
generic binary-search implementation run over the same sequence of elements
only for the zero-offset generators (the range form with offset 0 — which
includes `normalized` — with any positive step, and the constant-context
form), and only on in-range queries that do not fall exactly on a knot;
exact-match queries and nonzero offsets diverge (see the counterexample). -/
theorem equidistant_ubwf_agrees_generic (n : ℕ) (s q r : ℚ) (hn : 2 ≤ n)
    (hs : 0 < s) (hq0 : 0 < q) (hq1 : q < s * ((n - 1 : ℕ) : ℚ))
    (hqni : ((Rat.floor (q / s) : ℤ) : ℚ) ≠ q / s)
    (hr0 : 0 < r) (hr1 : r < 1)
    (hrni : ((Rat.floor (r * ((n - 1 : ℕ) : ℚ)) : ℤ) : ℚ) ≠ r * ((n - 1 : ℕ) : ℚ)) :
    Equidistant.upper_border_with_factor ⟨n, s, 0⟩ q =
      upper_border_with_factor (Equidistant.toList ⟨n, s, 0⟩) q ∧
    ConstEquidistant.upper_border_with_factor ⟨n⟩ r =
      upper_border_with_factor (ConstEquidistant.toList ⟨n⟩) r := by
  constructor
  · exact equid_ubwf_agree n s q hn hs hq0 hq1 hqni
  · rw [const_toList_eq n, const_ubwf_eq n r]
    have hd0 : (0 : ℚ) < ((n - 1 : ℕ) : ℚ) := by
      have h1 : 0 < n - 1 := by omega
      exact_mod_cast h1
    have hstep : (0 : ℚ) < ((n - 1 : ℕ) : ℚ)⁻¹ := inv_pos.mpr hd0
    refine equid_ubwf_agree n _ r hn hstep hr0 ?_ ?_
    · rw [inv_mul_cancel₀ (ne_of_gt hd0)]
      exact hr1
    · rw [div_inv_eq_mul r ((n - 1 : ℕ) : ℚ)]
      exact hrni

/-- Witness for the amended C1: 3 knots, in-range non-matching queries
`q = 1/2` (range form, step 1, knots 0, 1, 2) and `r = 1/4` (constant-context
form, knots 0, 1/2, 1). -/
theorem equidistant_ubwf_agrees_generic_witness :
    Equidistant.upper_border_with_factor ⟨3, 1, 0⟩ (1/2) =
      upper_border_with_factor (Equidistant.toList ⟨3, 1, 0⟩) (1/2) ∧
    ConstEquidistant.upper_border_with_factor ⟨3⟩ (1/4) =
      upper_border_with_factor (ConstEquidistant.toList ⟨3⟩) (1/4) :=
  equidistant_ubwf_agrees_generic 3 1 (1/2) (1/4) (by norm_num) (by norm_num)
    (by norm_num) (by norm_num) (by rw [ratFloor_eq_floor]; norm_num)
    (by norm_num) (by norm_num) (by rw [ratFloor_eq_floor]; norm_num)

end Enterpolation
